import Mathlib

/-!
Shallow embedding of `gb-packing-visualizer` (sources: `src/main.rs`,
`src/parse.rs`, `src/render.rs`).

Machine integers (`u16`, `u32`) are modelled as `Nat`; wherever the Rust code
can wrap (release-mode two's-complement wrapping of `u32` subtraction and of
`next_power_of_two` overflow), the wrap is made explicit with `% 2^32`.
The RGB pixel buffer (`Vec<u8>`, 3 bytes per pixel, row-major) is modelled at
pixel granularity as a function from the flat pixel index `x + y * width` to an
RGB triple; every write the program performs is pixel-aligned
(`write_color` writes bytes `3*idx`, `3*idx+1`, `3*idx+2`), so this is exact.
-/

namespace GBPack

/-- An RGB color, as in `type Color = (u8, u8, u8);` in `render.rs`. -/
abbrev Color := Nat × Nat × Nat

/-- `struct Location { bank: u32, addr: u16 }` from `main.rs`. -/
structure Location where
  bank : Nat
  addr : Nat
deriving DecidableEq, Repr

/-- `enum MemType` from `main.rs`. -/
inductive MemType where
  | Rom0 | Romx | Vram | Sram | Wram0 | Wramx | Oam | Hram
deriving DecidableEq, Repr

/-- `struct Section` from `main.rs`. -/
structure Section where
  mem_type : MemType
  location : Location
  align_mask : Nat
  align_ofs : Nat
  size : Nat
  name : String
deriving DecidableEq, Repr

/-- `struct Frame { location, section_id }` from `main.rs`. -/
structure Frame where
  location : Location
  section_id : Nat
deriving DecidableEq, Repr

/-- `struct Sequence { nb_banks, frames, sections }` from `main.rs`. -/
structure Sequence where
  nb_banks : Nat
  frames : List Frame
  sections : List Section
deriving DecidableEq, Repr

namespace Canvas

/-- `Canvas::HEIGHT = 512`. -/
def HEIGHT : Nat := 512

/-- `Canvas::MAX_WIDTH = Canvas::HEIGHT * 2`. -/
def MAX_WIDTH : Nat := HEIGHT * 2

/-- `Canvas::SPACER_WIDTH = 2`. -/
def SPACER_WIDTH : Nat := 2

/-- `Canvas::MAX_BANK_WIDTH = 32 - Canvas::SPACER_WIDTH`. -/
def MAX_BANK_WIDTH : Nat := 32 - SPACER_WIDTH

/-- `Canvas::BYTES_PER_ROW = 0x4000 / Canvas::HEIGHT`. -/
def BYTES_PER_ROW : Nat := 0x4000 / HEIGHT

/-- `Canvas::FILLED_COLOR = (0, 255, 0)`. -/
def FILLED_COLOR : Color := (0, 255, 0)

/-- `Canvas::OVERLAY_COLOR = (255, 0, 0)`. -/
def OVERLAY_COLOR : Color := (255, 0, 0)

/-- `(Self::MAX_WIDTH / nb_banks) & !1` in `Canvas::new`: the quotient rounded
down to even (`& !1` clears the lowest bit). Over `Nat`, `MAX_WIDTH / 0 = 0`
where Rust would panic with a division by zero. -/
def evenQuot (nb_banks : Nat) : Nat :=
  MAX_WIDTH / nb_banks / 2 * 2

/-- The bank width picked by `Canvas::new`:
`cmp::min(((Self::MAX_WIDTH / nb_banks) & !1) - Self::SPACER_WIDTH, Self::MAX_BANK_WIDTH)`.
The subtraction is on `u32`; over `Nat` it truncates at 0 where Rust would
panic (debug) or wrap (release) — see `c10_new_arith_domain` for the exact
domain on which no underflow occurs. -/
def bankWidthOf (nb_banks : Nat) : Nat :=
  min (evenQuot nb_banks - SPACER_WIDTH) MAX_BANK_WIDTH

/-- `Canvas::n_banks_width`. -/
def n_banks_width (bank_width nb_banks : Nat) : Nat :=
  (bank_width + SPACER_WIDTH) * nb_banks - SPACER_WIDTH

/-- `u32` wrapping decrement: `n - 1` on `u32` (wraps at 0 in release mode). -/
def wrapSub1 (n : Nat) : Nat :=
  (n + 0xFFFFFFFF) % 0x100000000

/-- `let first_byte_row = addr / Self::BYTES_PER_ROW;` in `Canvas::draw_rect`
(`addr` already reduced mod `0x4000`). -/
def first_byte_row (local_addr : Nat) : Nat :=
  local_addr / BYTES_PER_ROW

/-- `let last_byte_row = cmp::min(addr + nb_bytes - 1, 0x3fff) / Self::BYTES_PER_ROW;`
in `Canvas::draw_rect`, with the `u32` subtraction's wrap explicit. -/
def last_byte_row (local_addr nb_bytes : Nat) : Nat :=
  min (wrapSub1 (local_addr + nb_bytes)) 0x3fff / BYTES_PER_ROW

end Canvas

/-- Concrete geometry checks. -/
example : Canvas.bankWidthOf 2 = 30 := by decide
example : Canvas.n_banks_width (Canvas.bankWidthOf 2) 2 = 62 := by decide

/-- C7, interior fact proved once by enumeration of the 64 cases. -/
theorem bankWidth_facts_lt65 :
    ∀ nb < 65, 1 ≤ nb →
      Canvas.bankWidthOf nb % 2 = 0 ∧
      Canvas.bankWidthOf nb + Canvas.SPACER_WIDTH ≤ 32 ∧
      Canvas.n_banks_width (Canvas.bankWidthOf nb) nb =
        (Canvas.bankWidthOf nb + 2) * nb - 2 ∧
      Canvas.n_banks_width (Canvas.bankWidthOf nb) nb ≤ 1024 := by
  decide

/-- C7: for every `nb_banks` in `[1, 64]`, the bank width
`min(((1024 / nb_banks) rounded down to even) - 2, 30)` computed by
`Canvas::new` is even, satisfies `bank_width + 2 ≤ 32`, and the total canvas
width equals `(bank_width + 2) * nb_banks - 2` and is at most 1024; in
particular for `nb_banks = 2` the bank width is 30 and the total width 62. -/
theorem c7_geometry_bank_width (nb : Nat) (h1 : 1 ≤ nb) (h2 : nb ≤ 64) :
    Canvas.bankWidthOf nb % 2 = 0 ∧
    Canvas.bankWidthOf nb + Canvas.SPACER_WIDTH ≤ 32 ∧
    Canvas.n_banks_width (Canvas.bankWidthOf nb) nb =
      (Canvas.bankWidthOf nb + 2) * nb - 2 ∧
    Canvas.n_banks_width (Canvas.bankWidthOf nb) nb ≤ 1024 ∧
    Canvas.bankWidthOf 2 = 30 ∧
    Canvas.n_banks_width (Canvas.bankWidthOf 2) 2 = 62 := by
  refine ⟨?_, ?_, ?_, ?_, by decide, by decide⟩ <;>
    exact (bankWidth_facts_lt65 nb (by omega) h1).elim (fun a b => by tauto)

/-- Witness for C7 at `nb_banks = 33`. -/
theorem c7_geometry_bank_width_witness :
    Canvas.bankWidthOf 33 % 2 = 0 ∧
    Canvas.n_banks_width (Canvas.bankWidthOf 33) 33 ≤ 1024 :=
  ⟨(c7_geometry_bank_width 33 (by decide) (by decide)).1,
   (c7_geometry_bank_width 33 (by decide) (by decide)).2.2.2.1⟩

namespace Canvas

/-- `Canvas::write_color(pixels, x, y, width, color)`, at pixel granularity:
the source writes bytes `3*(x + y*width) .. 3*(x + y*width)+2`; here the
buffer maps the flat pixel index `x + y*width` to its color. -/
def write_color (pixels : Nat → Color) (x y width : Nat) (color : Color) :
    Nat → Color :=
  fun i => if i = x + y * width then color else pixels i

/-- `Canvas::draw_rect(pixels, location, nb_bytes, width, bank_width, color)`:
for `y in first_byte_row..=last_byte_row`, for `x_ofs in 0..bank_width`,
write `color` at `(x + x_ofs, y)` where `x = location.bank * (bank_width + 2)`
and the rows come from `addr = location.addr % 0x4000`. -/
def draw_rect (pixels : Nat → Color) (location : Location)
    (nb_bytes width bank_width : Nat) (color : Color) : Nat → Color :=
  let addr := location.addr % 0x4000
  let x := location.bank * (bank_width + SPACER_WIDTH)
  (List.range' (first_byte_row addr)
      (last_byte_row addr nb_bytes + 1 - first_byte_row addr)).foldl
    (fun p y =>
      (List.range bank_width).foldl
        (fun p x_ofs => write_color p (x + x_ofs) y width color) p)
    pixels

/-- The set of flat pixel indices `draw_rect` writes, as a decidable test:
`i` is hit iff `i = x + x_ofs + y * width` for some row
`y ∈ [first_byte_row, last_byte_row]` and some `x_ofs < bank_width`. -/
def rectHit (location : Location) (nb_bytes width bank_width i : Nat) : Bool :=
  let addr := location.addr % 0x4000
  let x := location.bank * (bank_width + SPACER_WIDTH)
  (List.range' (first_byte_row addr)
      (last_byte_row addr nb_bytes + 1 - first_byte_row addr)).any
    fun y => (List.range bank_width).any
      fun x_ofs => i == x + x_ofs + y * width

end Canvas

/-- The inner `for x_ofs in 0..bank_width` loop of `draw_rect`, characterized
pointwise (stated for an arbitrary list of offsets). -/
theorem row_foldl_pixel (L : List Nat) (p : Nat → Color) (x y width i : Nat)
    (c : Color) :
    (L.foldl (fun p x_ofs => Canvas.write_color p (x + x_ofs) y width c) p) i =
      if L.any (fun x_ofs => i == x + x_ofs + y * width) then c else p i := by
  induction L generalizing p with
  | nil => simp
  | cons a t ih =>
      simp only [List.foldl_cons, List.any_cons]
      rw [ih]
      rcases Bool.eq_false_or_eq_true
          (t.any fun x_ofs => i == x + x_ofs + y * width) with ht | ht
      · simp [ht]
      · rcases Bool.eq_false_or_eq_true (i == x + a + y * width) with hi | hi
        · have hi' : i = x + a + y * width := by simpa using hi
          simp [Canvas.write_color, ht, hi, hi']
        · have hi' : ¬ i = x + a + y * width := by simpa using hi
          simp [Canvas.write_color, ht, hi, hi']

/-- The outer `for y in first_byte_row..=last_byte_row` loop of `draw_rect`,
characterized pointwise (stated for an arbitrary list of rows). -/
theorem rect_foldl_pixel (R : List Nat) (p : Nat → Color) (x width bw i : Nat)
    (c : Color) :
    (R.foldl (fun p y =>
        (List.range bw).foldl
          (fun p x_ofs => Canvas.write_color p (x + x_ofs) y width c) p) p) i =
      if R.any (fun y => (List.range bw).any
          fun x_ofs => i == x + x_ofs + y * width) then c else p i := by
  induction R generalizing p with
  | nil => simp
  | cons a t ih =>
      simp only [List.foldl_cons, List.any_cons]
      rw [ih]
      rcases Bool.eq_false_or_eq_true (t.any fun y => (List.range bw).any
          fun x_ofs => i == x + x_ofs + y * width) with ht | ht
      · simp [ht]
      · rcases Bool.eq_false_or_eq_true
            ((List.range bw).any fun x_ofs => i == x + x_ofs + a * width)
          with ha | ha
        · simp [row_foldl_pixel, ht, ha]
        · simp [row_foldl_pixel, ht, ha]

/-- `draw_rect` pointwise: a pixel inside the rectangle gets `color`, any
other pixel keeps its previous value. -/
theorem draw_rect_pixel (pixels : Nat → Color) (location : Location)
    (nb_bytes width bank_width : Nat) (color : Color) (i : Nat) :
    Canvas.draw_rect pixels location nb_bytes width bank_width color i =
      if Canvas.rectHit location nb_bytes width bank_width i then color
      else pixels i := by
  unfold Canvas.draw_rect Canvas.rectHit
  exact rect_foldl_pixel _ pixels _ width bank_width i color

/-- `struct Canvas { bank_width, nb_banks, pixels }` from `render.rs`. -/
structure Canvas where
  bank_width : Nat
  nb_banks : Nat
  pixels : Nat → Color

namespace Canvas

/-- `Canvas::width`. -/
def width (c : Canvas) : Nat := n_banks_width c.bank_width c.nb_banks

/-- `Canvas::height`. -/
def height (_ : Canvas) : Nat := HEIGHT

/-- `Canvas::new(nb_banks)`: an all-white buffer with 1-pixel black column
separators drawn in each inter-bank spacer (`for y in 0..height`,
`for bank in 1..nb_banks`, `for x_ofs in 1..=SPACER_WIDTH`). -/
def new (nb_banks : Nat) : Canvas :=
  let bank_width := bankWidthOf nb_banks
  let canvas : Canvas := ⟨bank_width, nb_banks, fun _ => (255, 255, 255)⟩
  let width := canvas.width
  let pixels := (List.range canvas.height).foldl
    (fun p y =>
      (List.range' 1 (canvas.nb_banks - 1)).foldl
        (fun p bank =>
          (List.range' 1 SPACER_WIDTH).foldl
            (fun p x_ofs =>
              write_color p
                (bank * (canvas.bank_width + SPACER_WIDTH) - x_ofs) y width
                (0, 0, 0))
            p)
        p)
    canvas.pixels
  { canvas with pixels := pixels }

/-- `Canvas::settle(section, location)`: draw the section's rectangle into
the permanent buffer in `FILLED_COLOR`. -/
def settle (c : Canvas) (sec : Section) (location : Location) : Canvas :=
  { c with
    pixels :=
      draw_rect c.pixels location sec.size c.width c.bank_width FILLED_COLOR }

/-- `Canvas::overlay(section, location)`: a fresh copy of the permanent
buffer (`self.pixels.clone()`) with the rectangle drawn in `OVERLAY_COLOR`;
the canvas itself is untouched. -/
def overlay (c : Canvas) (sec : Section) (location : Location) : Nat → Color :=
  draw_rect c.pixels location sec.size c.width c.bank_width OVERLAY_COLOR

end Canvas

/-- C5: `overlay` never mutates the permanent buffer. In this embedding
`overlay` returns a fresh buffer and leaves the canvas untouched by
construction (`Canvas.overlay` reads `c.pixels` and returns a new function);
this theorem states the pixel-level content: after two `overlay` calls with
different arguments, each returned buffer equals the (same, unmodified)
permanent buffer at every pixel outside its own highlighted rectangle, and
equals the red highlight color inside it. -/
theorem c5_overlay_no_mutation (c : Canvas) (s1 s2 : Section)
    (l1 l2 : Location) (i : Nat) :
    (Canvas.rectHit l1 s1.size c.width c.bank_width i = false →
      c.overlay s1 l1 i = c.pixels i) ∧
    (Canvas.rectHit l1 s1.size c.width c.bank_width i = true →
      c.overlay s1 l1 i = Canvas.OVERLAY_COLOR) ∧
    (Canvas.rectHit l2 s2.size c.width c.bank_width i = false →
      c.overlay s2 l2 i = c.pixels i) ∧
    (Canvas.rectHit l2 s2.size c.width c.bank_width i = true →
      c.overlay s2 l2 i = Canvas.OVERLAY_COLOR) := by
  unfold Canvas.overlay
  refine ⟨fun h => ?_, fun h => ?_, fun h => ?_, fun h => ?_⟩ <;>
    rw [draw_rect_pixel, h] <;> simp

/-- Witness for C5: a concrete 2-bank canvas with constant color `(7,7,7)`,
a 1-byte section at bank 0 address 0 (rectangle = pixels 0 and 1 of row 0):
pixel 5 is outside and keeps the permanent color, pixel 0 is inside and is
red. -/
theorem c5_overlay_no_mutation_witness :
    (Canvas.rectHit ⟨0, 0⟩
        (Section.size ⟨.Romx, ⟨0, 0⟩, 0, 0, 1, "w"⟩)
        (Canvas.width ⟨2, 2, fun _ => (7, 7, 7)⟩)
        (Canvas.bank_width ⟨2, 2, fun _ => (7, 7, 7)⟩) 5 = false) ∧
    Canvas.overlay ⟨2, 2, fun _ => (7, 7, 7)⟩
      ⟨.Romx, ⟨0, 0⟩, 0, 0, 1, "w"⟩ ⟨0, 0⟩ 5 = (7, 7, 7) ∧
    (Canvas.rectHit ⟨0, 0⟩
        (Section.size ⟨.Romx, ⟨0, 0⟩, 0, 0, 1, "w"⟩)
        (Canvas.width ⟨2, 2, fun _ => (7, 7, 7)⟩)
        (Canvas.bank_width ⟨2, 2, fun _ => (7, 7, 7)⟩) 0 = true) ∧
    Canvas.overlay ⟨2, 2, fun _ => (7, 7, 7)⟩
      ⟨.Romx, ⟨0, 0⟩, 0, 0, 1, "w"⟩ ⟨0, 0⟩ 0 = (255, 0, 0) :=
  ⟨by decide,
   ((c5_overlay_no_mutation ⟨2, 2, fun _ => (7, 7, 7)⟩
      ⟨.Romx, ⟨0, 0⟩, 0, 0, 1, "w"⟩ ⟨.Romx, ⟨0, 0⟩, 0, 0, 1, "w"⟩
      ⟨0, 0⟩ ⟨0, 0⟩ 5).1 (by decide)).trans rfl,
   by decide,
   ((c5_overlay_no_mutation ⟨2, 2, fun _ => (7, 7, 7)⟩
      ⟨.Romx, ⟨0, 0⟩, 0, 0, 1, "w"⟩ ⟨.Romx, ⟨0, 0⟩, 0, 0, 1, "w"⟩
      ⟨0, 0⟩ ⟨0, 0⟩ 0).2.1 (by decide)).trans rfl⟩

/-- A run of `settle` calls, in order (the only mutations the permanent
buffer ever sees during rendering). -/
def settleRun (c : Canvas) (ops : List (Section × Location)) : Canvas :=
  ops.foldl (fun c op => c.settle op.1 op.2) c

/-- One `settle` either leaves a pixel alone or paints it `FILLED_COLOR`. -/
theorem settle_pixel_cases (c : Canvas) (sec : Section) (l : Location)
    (i : Nat) :
    (c.settle sec l).pixels i = c.pixels i ∨
    (c.settle sec l).pixels i = Canvas.FILLED_COLOR := by
  show Canvas.draw_rect c.pixels l sec.size c.width c.bank_width
      Canvas.FILLED_COLOR i = c.pixels i ∨
    Canvas.draw_rect c.pixels l sec.size c.width c.bank_width
      Canvas.FILLED_COLOR i = Canvas.FILLED_COLOR
  cases h : Canvas.rectHit l sec.size c.width c.bank_width i
  · exact Or.inl (by rw [draw_rect_pixel, h]; simp)
  · exact Or.inr (by rw [draw_rect_pixel, h]; simp)

/-- Auxiliary: a non-white pixel stays non-white under any run of settles. -/
theorem settleRun_preserves_nonwhite (ops : List (Section × Location)) :
    ∀ c : Canvas, ∀ i : Nat, c.pixels i ≠ (255, 255, 255) →
      (settleRun c ops).pixels i ≠ (255, 255, 255) := by
  induction ops with
  | nil => intro c i h; exact h
  | cons op t ih =>
      intro c i h
      refine ih (c.settle op.1 op.2) i ?_
      rcases settle_pixel_cases c op.1 op.2 i with hc | hc
      · rw [hc]; exact h
      · rw [hc]; decide

/-- C6: `settle` is monotonic on the permanent buffer — a pixel that holds
the committed color `(0,255,0)` stays non-white (never reverts to the
background `(255,255,255)`) under every subsequent run of `settle`
operations; a later settle may repaint it with another committed rectangle
but only ever in the committed color. -/
theorem c6_settle_monotonic (c : Canvas) (i : Nat)
    (ops : List (Section × Location))
    (h : c.pixels i = Canvas.FILLED_COLOR) :
    (settleRun c ops).pixels i ≠ (255, 255, 255) := by
  refine settleRun_preserves_nonwhite ops c i ?_
  rw [h]; decide

/-- Witness for C6: a canvas whose pixel 3 is committed green stays
non-white at pixel 3 after a further settle. -/
theorem c6_settle_monotonic_witness :
    (Canvas.pixels ⟨2, 2, fun _ => (0, 255, 0)⟩ 3 = Canvas.FILLED_COLOR) ∧
    (settleRun ⟨2, 2, fun _ => (0, 255, 0)⟩
        [(⟨.Romx, ⟨0, 0⟩, 0, 0, 1, "w"⟩, ⟨0, 0⟩)]).pixels 3 ≠
      (255, 255, 255) :=
  ⟨rfl,
   c6_settle_monotonic ⟨2, 2, fun _ => (0, 255, 0)⟩ 3
     [(⟨.Romx, ⟨0, 0⟩, 0, 0, 1, "w"⟩, ⟨0, 0⟩)] rfl⟩

/-- The frame loop of `render` in `render.rs`, over the filtered,
section-resolved attempt list. Per attempt: emit
`canvas.overlay(section, frame.location)`, then — if the peeked next
attempt's `section_id` differs (`iter.peek().map(...) == Some(true)`; `None`
for the last attempt compares unequal to `Some(true)`) — run
`canvas.settle(section, frame.location)`. Each returned step records the
settle decision and the emitted buffer; the final canvas is also returned.
(The encoder/muxer side effects are external collaborators and not
modelled.) -/
def renderLoop (canvas : Canvas) :
    List (Frame × Section) → List (Bool × (Nat → Color)) × Canvas
  | [] => ([], canvas)
  | (frame, sec) :: rest =>
      let pixels := canvas.overlay sec frame.location
      let doSettle : Bool :=
        match rest with
        | (next_frame, _) :: _ => next_frame.section_id != frame.section_id
        | [] => false
      let canvas' :=
        if doSettle then canvas.settle sec frame.location else canvas
      ((doSettle, pixels) :: (renderLoop canvas' rest).1,
       (renderLoop canvas' rest).2)

/-- `render(sequence, ..)`: build the canvas from the sequence's bank count,
resolve each frame's section (`&sequence.sections[frame.section_id]`; the
Rust indexing panic on an out-of-range id is modelled by dropping the frame —
no claim concerns that case), keep only ROM-kind sections
(`matches!(section.mem_type, MemType::Rom0 | MemType::Romx)`), and run the
frame loop. -/
def render (sequence : Sequence) : List (Bool × (Nat → Color)) × Canvas :=
  let canvas := Canvas.new sequence.nb_banks
  let entries :=
    ((sequence.frames.filterMap fun frame =>
        (sequence.sections[frame.section_id]?).map fun sec => (frame, sec)).filter
      fun fs => fs.2.mem_type == MemType.Rom0 || fs.2.mem_type == MemType.Romx)
  renderLoop canvas entries

/-- The loop emits exactly one frame per (filtered) attempt. -/
theorem renderLoop_length (entries : List (Frame × Section)) :
    ∀ canvas : Canvas, ((renderLoop canvas entries).1).length = entries.length := by
  induction entries with
  | nil => intro c; rfl
  | cons e rest ih =>
      intro c
      obtain ⟨frame, sec⟩ := e
      simp only [renderLoop, List.length_cons]
      rw [ih]

/-- C2: for every non-empty (filtered) attempt list, the last attempt is
never settled: its lookahead peek is `None`, which compares unequal to
`Some(true)`, so the loop's final step records no settle and the last
placement is never committed into the permanent buffer. -/
theorem c2_last_attempt_not_settled (entries : List (Frame × Section)) :
    ∀ canvas : Canvas, entries ≠ [] →
      ((renderLoop canvas entries).1.getLast?).map Prod.fst = some false := by
  induction entries with
  | nil => intro c h; cases h rfl
  | cons e rest ih =>
      intro c _
      obtain ⟨frame, sec⟩ := e
      cases rest with
      | nil => rfl
      | cons e2 rest' =>
          obtain ⟨f2, s2⟩ := e2
          have key : ∀ (d : Bool) (pix : Nat → Color) (c2 : Canvas),
              (((d, pix) ::
                  (renderLoop c2 ((f2, s2) :: rest')).1).getLast?).map
                Prod.fst = some false := by
            intro d pix c2
            have h1 := ih c2 (by simp)
            have h2 : (renderLoop c2 ((f2, s2) :: rest')).1 ≠ [] := by
              intro hnil
              have hl := renderLoop_length ((f2, s2) :: rest') c2
              rw [hnil] at hl
              simp at hl
            obtain ⟨b, l', hb⟩ := List.exists_cons_of_ne_nil h2
            rw [hb, List.getLast?_cons_cons]
            rw [hb] at h1
            exact h1
          simp only [renderLoop]
          exact key _ _ _

/-- Witness for C2: a single-attempt list on a concrete canvas — the sole
(hence last) step settles nothing. -/
theorem c2_last_attempt_not_settled_witness :
    (([(⟨⟨0, 0⟩, 0⟩, ⟨.Romx, ⟨0, 0⟩, 0, 0, 1, "w"⟩)] :
        List (Frame × Section)) ≠ []) ∧
    ((renderLoop ⟨2, 2, fun _ => (255, 255, 255)⟩
        [(⟨⟨0, 0⟩, 0⟩, ⟨.Romx, ⟨0, 0⟩, 0, 0, 1, "w"⟩)]).1.getLast?).map
      Prod.fst = some false :=
  ⟨by simp,
   c2_last_attempt_not_settled
     [(⟨⟨0, 0⟩, 0⟩, ⟨.Romx, ⟨0, 0⟩, 0, 0, 1, "w"⟩)]
     ⟨2, 2, fun _ => (255, 255, 255)⟩ (by simp)⟩

/-- C3: on the attempt list `[(S1,L1a), (S1,L1b), (S2,L2a)]` the sequencer
emits exactly 3 frames in order, settles after frame 2 (the next attempt's
section differs: S1 ≠ S2) and after no other frame — in particular not after
frame 1 (next section still S1) and not after the final frame 3. -/
theorem c3_three_frame_scenario :
    (render ⟨2,
        [⟨⟨1, 0x4000⟩, 0⟩, ⟨⟨1, 0x4100⟩, 0⟩, ⟨⟨0, 0x0150⟩, 1⟩],
        [⟨.Romx, ⟨1, 0xFFFF⟩, 0, 0, 16, "s1"⟩,
         ⟨.Rom0, ⟨0, 0xFFFF⟩, 0, 0, 32, "s2"⟩]⟩).1.map Prod.fst =
      [false, true, false] ∧
    (render ⟨2,
        [⟨⟨1, 0x4000⟩, 0⟩, ⟨⟨1, 0x4100⟩, 0⟩, ⟨⟨0, 0x0150⟩, 1⟩],
        [⟨.Romx, ⟨1, 0xFFFF⟩, 0, 0, 16, "s1"⟩,
         ⟨.Rom0, ⟨0, 0xFFFF⟩, 0, 0, 32, "s2"⟩]⟩).1.length = 3 :=
  ⟨rfl, rfl⟩

/-- C4: for every placement of `nb_bytes ≥ 1` bytes at a (16-bit) address
`addr`, with `local_addr = addr % 0x4000`, `Canvas::draw_rect`'s
`first_byte_row = local_addr / 32` and
`last_byte_row = min(local_addr + nb_bytes - 1, 0x3fff) / 32` satisfy
`first_byte_row ≤ last_byte_row` and both lie in `[0, 511]`, no matter how
large `nb_bytes` (a `u16` section size) is: the `min` cap holds even when
`local_addr + nb_bytes - 1` exceeds `0x3fff`. -/
theorem c4_row_bounds (addr nb_bytes : Nat)
    (haddr : addr ≤ 0xFFFF) (h1 : 1 ≤ nb_bytes) (h2 : nb_bytes ≤ 0xFFFF) :
    Canvas.first_byte_row (addr % 0x4000) ≤
      Canvas.last_byte_row (addr % 0x4000) nb_bytes ∧
    Canvas.first_byte_row (addr % 0x4000) ≤ 511 ∧
    Canvas.last_byte_row (addr % 0x4000) nb_bytes ≤ 511 := by
  unfold Canvas.first_byte_row Canvas.last_byte_row Canvas.wrapSub1
    Canvas.BYTES_PER_ROW Canvas.HEIGHT
  omega

/-- Witness for C4 at `addr = 0x7FF0`, `nb_bytes = 0xFFFF` (the cap engages:
`local_addr + nb_bytes - 1` far exceeds `0x3fff`). -/
theorem c4_row_bounds_witness :
    Canvas.first_byte_row (0x7FF0 % 0x4000) ≤
      Canvas.last_byte_row (0x7FF0 % 0x4000) 0xFFFF ∧
    Canvas.last_byte_row (0x7FF0 % 0x4000) 0xFFFF ≤ 511 :=
  ⟨(c4_row_bounds 0x7FF0 0xFFFF (by decide) (by decide) (by decide)).1,
   (c4_row_bounds 0x7FF0 0xFFFF (by decide) (by decide) (by decide)).2.2⟩

/-! ### Ingestion (`parse.rs`)

The I/O layer (stdin, progress messages) is external; `parse_input` is
modelled over the list of raw input lines. `ParseIntError` payloads inside
the error kinds are dropped (they only carry diagnostics text). -/

/-- `LocationParseError` from `parse.rs`. -/
inductive LocationParseError where
  | MissingColon
  | BadBank
  | BadAddr
deriving DecidableEq, Repr

/-- `SectionParseError` from `parse.rs`. -/
inductive SectionParseError where
  | SyntaxError
  | BadType
  | BadLocation (e : LocationParseError)
  | BadAlignMask
  | BadAlignOfs
  | BadSize
deriving DecidableEq, Repr

/-- `ParseError` from `parse.rs` (the `Io` variant belongs to the external
I/O layer and is omitted). -/
inductive ParseError where
  | AttemptBeforeSection (line_no : Nat) (line : List Char)
  | BadSection (e : SectionParseError) (line_no : Nat) (line : List Char)
  | BadAttempt (e : LocationParseError) (line_no : Nat) (line : List Char)
deriving DecidableEq, Repr

/-- `[[:blank:]]` of the section regex: space or tab. -/
def isBlank (c : Char) : Bool := c == ' ' || c == '\t'

/-- The numeric value of one digit, as `from_str_radix` accepts (decimal
digits plus both hexadecimal letter cases). -/
def digitVal (c : Char) : Option Nat :=
  if '0' ≤ c ∧ c ≤ '9' then some (c.toNat - '0'.toNat)
  else if 'a' ≤ c ∧ c ≤ 'f' then some (c.toNat - 'a'.toNat + 10)
  else if 'A' ≤ c ∧ c ≤ 'F' then some (c.toNat - 'A'.toNat + 10)
  else none

/-- Digit-string accumulator for `from_str_radix`. -/
def parseDigits (radix : Nat) : Nat → List Char → Option Nat
  | acc, [] => some acc
  | acc, c :: rest =>
      match digitVal c with
      | some d =>
          if d < radix then parseDigits radix (acc * radix + d) rest else none
      | none => none

/-- `uN::from_str_radix(s, radix)` (and `u16: FromStr` for `radix = 10`):
an optional leading `+`, then at least one digit of the radix; a value not
below `bound = 2^N` is Rust's overflow error. -/
def from_str_radix (radix bound : Nat) (s : List Char) : Option Nat :=
  let s := match s with
    | '+' :: rest => rest
    | _ => s
  match s with
  | [] => none
  | _ =>
      match parseDigits radix 0 s with
      | some v => if v < bound then some v else none
      | none => none

/-- `str::split_once(':')`: split at the first colon. -/
def split_once_colon : List Char → Option (List Char × List Char)
  | [] => none
  | c :: rest =>
      if c = ':' then some ([], rest)
      else
        match split_once_colon rest with
        | some (a, b) => some (c :: a, b)
        | none => none

/-- `str::trim`: whitespace stripped from both ends. -/
def trimChars (s : List Char) : List Char :=
  ((s.dropWhile Char.isWhitespace).reverse.dropWhile Char.isWhitespace).reverse

/-- `Location::from_str`: `bank:addr`, both hex, trimmed, `bank: u32`,
`addr: u16`. -/
def locationFromStr (line : List Char) : Except LocationParseError Location :=
  match split_once_colon line with
  | none => .error .MissingColon
  | some (bank, addr) =>
      match from_str_radix 16 0x100000000 (trimChars bank) with
      | none => .error .BadBank
      | some bank =>
          match from_str_radix 16 0x10000 (trimChars addr) with
          | none => .error .BadAddr
          | some addr => .ok ⟨bank, addr⟩

/-- `MemType: FromStr`, derived with `#[display(style = "UPPERCASE")]`. -/
def memTypeFromStr (s : List Char) : Option MemType :=
  if s = "ROM0".toList then some .Rom0
  else if s = "ROMX".toList then some .Romx
  else if s = "VRAM".toList then some .Vram
  else if s = "SRAM".toList then some .Sram
  else if s = "WRAM0".toList then some .Wram0
  else if s = "WRAMX".toList then some .Wramx
  else if s = "OAM".toList then some .Oam
  else if s = "HRAM".toList then some .Hram
  else none

/-- One capture of the section regex of the shape `[^[:blank:]X]+`: the
maximal run of characters that are neither blank nor the terminator `X`.
(The regex match is deterministic: shortening any such greedy capture leaves
a character that the following `[[:blank:]]*X` cannot consume.) -/
def captureUntil (stop : Char) (s : List Char) : List Char × List Char :=
  s.span fun c => !(isBlank c) && c != stop

/-- `[[:blank:]]*`. -/
def dropBlanks (s : List Char) : List Char := s.dropWhile isBlank

/-- The anchored section regex
`^([^\s@]+)\s*@\s*([^\s&]+)\s*&\s*([^\s+]+)\s*\+\s*([^\s\]]+)\s*\]\s*([^\s]+)\s(.*)$`
(with `\s` standing for `[[:blank:]]`), split into its six captures. -/
def sectionSplit (rest : List Char) :
    Option (List Char × List Char × List Char × List Char × List Char ×
      List Char) :=
  let (c1, r) := captureUntil '@' rest
  if c1 = [] then none else
  match dropBlanks r with
  | '@' :: r =>
    let (c2, r) := captureUntil '&' (dropBlanks r)
    if c2 = [] then none else
    match dropBlanks r with
    | '&' :: r =>
      let (c3, r) := captureUntil '+' (dropBlanks r)
      if c3 = [] then none else
      match dropBlanks r with
      | '+' :: r =>
        let (c4, r) := captureUntil ']' (dropBlanks r)
        if c4 = [] then none else
        match dropBlanks r with
        | ']' :: r =>
          let (c5, r) := (dropBlanks r).span fun c => !(isBlank c)
          if c5 = [] then none else
          match r with
          | b :: name => if isBlank b then some (c1, c2, c3, c4, c5, name)
                         else none
          | [] => none
        | _ => none
      | _ => none
    | _ => none
  | _ => none

/-- `Section::from_str` (on the line with the leading `[` already
stripped): regex split, then field parses in declaration order; the type
token is the first capture, the target location the second (hex `bank:addr`),
alignment mask and offset hex `u16`s, the size a decimal `u16`, the name the
free text after a single blank. -/
def sectionFromStr (rest : List Char) : Except SectionParseError Section :=
  match sectionSplit rest with
  | none => .error .SyntaxError
  | some (c1, c2, c3, c4, c5, name) =>
      match memTypeFromStr c1 with
      | none => .error .BadType
      | some mem_type =>
          match locationFromStr c2 with
          | .error e => .error (.BadLocation e)
          | .ok location =>
              match from_str_radix 16 0x10000 c3 with
              | none => .error .BadAlignMask
              | some align_mask =>
                  match from_str_radix 16 0x10000 c4 with
                  | none => .error .BadAlignOfs
                  | some align_ofs =>
                      match from_str_radix 10 0x10000 c5 with
                      | none => .error .BadSize
                      | some size =>
                          .ok ⟨mem_type, location, align_mask, align_ofs,
                               size, String.mk name⟩

/-- The doubling loop behind `u32::next_power_of_two`: starting from
`p = 2^0`, double until `b ≤ p` (the fuel bounds the 32 possible doublings
plus the final wrap step). -/
def npotLoop (b : Nat) : Nat → Nat → Nat
  | 0, p => p
  | fuel + 1, p => if b ≤ p then p else npotLoop b fuel (p * 2)

/-- `u32::next_power_of_two`: the least power of two `≥ self`; 1 for
`self ≤ 1`; on overflow (`self > 2^31`) release builds wrap the result to 0
(debug builds panic), hence the final `% 2^32`. -/
def next_power_of_two (b : Nat) : Nat :=
  if b ≤ 1 then 1 else npotLoop b 33 1 % 0x100000000

/-- The `MemType::Romx` arm of `parse_input`:
`if location.bank >= nb_banks { nb_banks = location.bank.next_power_of_two(); }`. -/
def updateBanks (nb_banks bank : Nat) : Nat :=
  if nb_banks ≤ bank then next_power_of_two bank else nb_banks

/-- The loop state of `parse_input`: the mutable
`nb_banks` / `frames` / `sections` locals. -/
structure ParseState where
  nb_banks : Nat
  frames : List Frame
  sections : List Section
deriving DecidableEq, Repr

/-- Per-line preprocessing of `parse_input`: `line.trim_start()`, then
`strip_suffix('\n')`, then `strip_suffix('\r')`. -/
def stripLine (raw : List Char) : List Char :=
  let line := raw.dropWhile Char.isWhitespace
  let line := if line.getLast? = some '\n' then line.dropLast else line
  if line.getLast? = some '\r' then line.dropLast else line

/-- The attempt branch of `parse_input` after the location parsed:
`section_id = sections.len().checked_sub(1)` (`None` — i.e. no section yet —
is the `AttemptBeforeSection` error), then match on that section's
`mem_type`: `Romx` may raise `nb_banks`, `Rom0` leaves it, any other kind
skips the attempt (`continue`); only `Romx`/`Rom0` push a `Frame`. -/
def applyAttempt (st : ParseState) (location : Location) :
    Option ParseState :=
  match st.sections.getLast? with
  | none => none
  | some sec =>
      let section_id := st.sections.length - 1
      match sec.mem_type with
      | .Romx => some { st with
          nb_banks := updateBanks st.nb_banks location.bank,
          frames := st.frames ++ [⟨location, section_id⟩] }
      | .Rom0 => some { st with
          frames := st.frames ++ [⟨location, section_id⟩] }
      | _ => some st

/-- One iteration of `parse_input`'s line loop. -/
def processLine (st : ParseState) (line_no : Nat) (raw : List Char) :
    Except ParseError ParseState :=
  match stripLine raw with
  | [] => .ok st
  | '[' :: rest =>
      match sectionFromStr rest with
      | .ok sec => .ok { st with sections := st.sections ++ [sec] }
      | .error e => .error (.BadSection e line_no (stripLine raw))
  | _ =>
      match locationFromStr (stripLine raw) with
      | .error e => .error (.BadAttempt e line_no (stripLine raw))
      | .ok location =>
          match applyAttempt st location with
          | some st' => .ok st'
          | none => .error (.AttemptBeforeSection line_no (stripLine raw))

/-- `parse_input`'s loop over the remaining lines (`line_no` is 1-based). -/
def parseLines (st : ParseState) (line_no : Nat) :
    List (List Char) → Except ParseError ParseState
  | [] => .ok st
  | raw :: rest =>
      match processLine st line_no raw with
      | .ok st' => parseLines st' (line_no + 1) rest
      | .error e => .error e

/-- `parse_input`, over the raw input lines: start from `nb_banks = 2` and
empty `frames` / `sections`, fold the line loop, and package the resulting
`Sequence`. -/
def parse_input (lines : List (List Char)) : Except ParseError Sequence :=
  match parseLines ⟨2, [], []⟩ 1 lines with
  | .ok st => .ok ⟨st.nb_banks, st.frames, st.sections⟩
  | .error e => .error e

/-- Concrete ingestion checks. -/
example : next_power_of_two 5 = 8 := by decide
example : next_power_of_two 4 = 4 := by decide
example :
    parse_input ["[ROMX @ 4:4000 & 0 + 0 ] 1 x".toList, "4:4000".toList] =
      .ok ⟨4, [⟨⟨4, 0x4000⟩, 0⟩], [⟨.Romx, ⟨4, 0x4000⟩, 0, 0, 1, "x"⟩]⟩ := by
  rfl

/-- The claim's description of the raise target, written from its words:
"the next power of two ≥ that bank index", i.e. the least power of two
greater than or equal to `b` (for comparison with the source's
`next_power_of_two`). -/
def claimNextPow2 (b : Nat) : Nat := 2 ^ Nat.clog 2 b

/-- The doubling loop computes `2 ^ clog 2 b` when started at a power of two
not above it and given enough fuel. -/
theorem npotLoop_eq (b : Nat) :
    ∀ fuel k, k ≤ Nat.clog 2 b → Nat.clog 2 b ≤ k + fuel →
      npotLoop b fuel (2 ^ k) = 2 ^ Nat.clog 2 b := by
  intro fuel
  induction fuel with
  | zero =>
      intro k h1 h2
      have hk : k = Nat.clog 2 b := le_antisymm h1 (by omega)
      subst hk
      rfl
  | succ fuel ih =>
      intro k h1 h2
      show (if b ≤ 2 ^ k then 2 ^ k else npotLoop b fuel (2 ^ k * 2)) =
        2 ^ Nat.clog 2 b
      by_cases hle : b ≤ 2 ^ k
      · rw [if_pos hle]
        have hup : Nat.clog 2 b ≤ k :=
          (Nat.le_pow_iff_clog_le (by norm_num)).mp hle
        rw [le_antisymm h1 hup]
      · rw [if_neg hle]
        have hk1 : k + 1 ≤ Nat.clog 2 b := by
          by_contra hc
          push_neg at hc
          exact hle (le_trans (Nat.le_pow_clog (by norm_num) b)
            (Nat.pow_le_pow_right (by norm_num) (by omega)))
        have := ih (k + 1) hk1 (by omega)
        rw [← this, Nat.pow_succ]

/-- For every `u32` value up to `2^31` (where no overflow wrap occurs),
the source's `next_power_of_two` is exactly the claim's "next power of two
≥ bank". -/
theorem next_power_of_two_eq (b : Nat) (hb : b ≤ 2 ^ 31) :
    next_power_of_two b = claimNextPow2 b := by
  unfold next_power_of_two claimNextPow2
  by_cases h1 : b ≤ 1
  · rw [if_pos h1]
    have hc : Nat.clog 2 b = 0 :=
      Nat.le_zero.mp ((Nat.le_pow_iff_clog_le (by norm_num)).mp (by simpa using h1))
    rw [hc, Nat.pow_zero]
  · rw [if_neg h1]
    have hclog : Nat.clog 2 b ≤ 31 :=
      (Nat.le_pow_iff_clog_le (by norm_num)).mp hb
    have hloop : npotLoop b 33 1 = 2 ^ Nat.clog 2 b :=
      npotLoop_eq b 33 0 (by omega) (by omega)
    rw [hloop, Nat.mod_eq_of_lt]
    exact lt_of_le_of_lt (Nat.pow_le_pow_right (by norm_num) hclog)
      (by norm_num)

/-- `b ≤ next_power_of_two b` below the wrap threshold. -/
theorem le_next_power_of_two (b : Nat) (hb : b ≤ 2 ^ 31) :
    b ≤ next_power_of_two b := by
  rw [next_power_of_two_eq b hb]
  exact Nat.le_pow_clog (by norm_num) b

/-- C8 (amended): the bank-count derivation rule of `parse_input`. The
count starts at 2 (an empty input yields `nb_banks = 2`); an attempt under
a banked-ROM (`ROMX`) section whose bank index is ≥ the current count — and
at most the `u32` `next_power_of_two` wrap threshold `2^31`, see the
counterexample for the wrap above it — raises the count to the next power
of two ≥ that bank index (`claimNextPow2`, shown to coincide with the
source's `next_power_of_two` below the threshold and to be the least power
of two ≥ the bank); an attempt under a fixed-bank (`ROM0`) section never
changes the count. The concrete scenario: a banked-ROM attempt at bank 5
with count 2 raises the count to 8. -/
theorem c8_bank_count_derivation :
    (∀ nb bank, bank ≤ 2 ^ 31 →
      updateBanks nb bank = if nb ≤ bank then claimNextPow2 bank else nb) ∧
    (∀ bank, bank ≤ claimNextPow2 bank) ∧
    (∀ bank m, bank ≤ 2 ^ m → claimNextPow2 bank ≤ 2 ^ m) ∧
    parse_input [] = .ok ⟨2, [], []⟩ ∧
    (updateBanks 2 5 = 8 ∧ claimNextPow2 5 = 8) ∧
    (∀ st loc st', applyAttempt st loc = some st' →
      (st.sections.getLast?).map Section.mem_type = some .Rom0 →
      st'.nb_banks = st.nb_banks) ∧
    (∀ st loc st', applyAttempt st loc = some st' →
      (st.sections.getLast?).map Section.mem_type = some .Romx →
      st'.nb_banks = updateBanks st.nb_banks loc.bank) := by
  refine ⟨?_, ?_, ?_, rfl, ⟨by decide, ?_⟩, ?_, ?_⟩
  · intro nb bank hb
    unfold updateBanks
    by_cases hc : nb ≤ bank
    · rw [if_pos hc, if_pos hc, next_power_of_two_eq bank hb]
    · rw [if_neg hc, if_neg hc]
  · intro bank
    exact Nat.le_pow_clog (by norm_num) bank
  · intro bank m hbm
    exact Nat.pow_le_pow_right (by norm_num)
      ((Nat.le_pow_iff_clog_le (by norm_num)).mp hbm)
  · exact (next_power_of_two_eq 5 (by norm_num)).symm.trans (by decide)
  · intro st loc st' h hmap
    unfold applyAttempt at h
    cases hlast : st.sections.getLast? with
    | none => rw [hlast] at h; exact Option.noConfusion h
    | some sec0 =>
        rw [hlast] at h hmap
        have hmt : sec0.mem_type = .Rom0 := by simpa using hmap
        obtain ⟨mt, loc0, am, ao, sz, nm⟩ := sec0
        have hmt' : mt = .Rom0 := hmt
        subst hmt'
        have h' : some { st with frames := st.frames ++
            [⟨loc, st.sections.length - 1⟩] } = some st' := h
        simp only [Option.some.injEq] at h'
        subst h'
        rfl
  · intro st loc st' h hmap
    unfold applyAttempt at h
    cases hlast : st.sections.getLast? with
    | none => rw [hlast] at h; exact Option.noConfusion h
    | some sec0 =>
        rw [hlast] at h hmap
        have hmt : sec0.mem_type = .Romx := by simpa using hmap
        obtain ⟨mt, loc0, am, ao, sz, nm⟩ := sec0
        have hmt' : mt = .Romx := hmt
        subst hmt'
        have h' : some { st with
            nb_banks := updateBanks st.nb_banks loc.bank,
            frames := st.frames ++
              [⟨loc, st.sections.length - 1⟩] } = some st' := h
        simp only [Option.some.injEq] at h'
        subst h'
        rfl

/-- Witness for C8: the raise rule applied at count 2, bank 5. -/
theorem c8_bank_count_derivation_witness :
    updateBanks 2 5 = if 2 ≤ 5 then claimNextPow2 5 else 2 :=
  c8_bank_count_derivation.1 2 5 (by norm_num)

/-- Counterexample for C8 as stated (unconditionally): at the representable
`u32` bank index `0x80000001 = 2^31 + 1`, `next_power_of_two` overflows —
release builds wrap the new count to 0 (debug builds panic) — so the raise
does NOT produce a power of two ≥ the bank index; ingestion of a single
`ROMX` attempt at that bank index derives `nb_banks = 0`. -/
theorem c8_bank_count_wrap_counterexample :
    updateBanks 2 (2 ^ 31 + 1) = 0 ∧
    ¬ (2 ^ 31 + 1 ≤ (0 : Nat)) ∧
    parse_input ["[ROMX @ 0:0 & 0 + 0 ] 1 x".toList,
        "80000001:0".toList] =
      .ok ⟨0, [⟨⟨0x80000001, 0⟩, 0⟩], [⟨.Romx, ⟨0, 0⟩, 0, 0, 1, "x"⟩]⟩ :=
  ⟨by decide, by decide, rfl⟩

/-- C10: the bank-width arithmetic of `Canvas::new` is well defined exactly
for `1 ≤ nb_banks ≤ 512`: there the even-rounded quotient
`(1024 / nb_banks) & !1` is at least 2, so subtracting the spacer width 2
cannot underflow; for every `nb_banks ≥ 513` the even-rounded quotient is 0
(so the `u32` subtraction `0 - 2` underflows — a panic in debug builds), and
`nb_banks = 0` divides by zero (a Rust panic; over `Nat` the quotient is 0,
again below 2). Such bank counts are reachable from valid input: a single
`ROMX` attempt at bank `0x201 = 513` makes ingestion derive
`nb_banks = 1024 ≥ 513`. -/
theorem c10_new_arith_domain :
    (∀ nb, 1 ≤ nb → nb ≤ 512 → 2 ≤ Canvas.evenQuot nb) ∧
    (∀ nb, 513 ≤ nb → Canvas.evenQuot nb = 0) ∧
    Canvas.evenQuot 0 = 0 ∧
    parse_input ["[ROMX @ 0:0 & 0 + 0 ] 1 x".toList, "201:0".toList] =
      .ok ⟨1024, [⟨⟨0x201, 0⟩, 0⟩], [⟨.Romx, ⟨0, 0⟩, 0, 0, 1, "x"⟩]⟩ ∧
    (513 : Nat) ≤ 1024 := by
  refine ⟨?_, ?_, by decide, by rfl, by norm_num⟩
  · intro nb h1 h2
    have hq : 2 ≤ Canvas.MAX_WIDTH / nb := by
      unfold Canvas.MAX_WIDTH Canvas.HEIGHT
      exact (Nat.le_div_iff_mul_le (by omega)).mpr (by omega)
    unfold Canvas.evenQuot
    generalize Canvas.MAX_WIDTH / nb = q at hq ⊢
    omega
  · intro nb h
    have hq : Canvas.MAX_WIDTH / nb < 2 := by
      unfold Canvas.MAX_WIDTH Canvas.HEIGHT
      exact (Nat.div_lt_iff_lt_mul (by omega)).mpr (by omega)
    unfold Canvas.evenQuot
    generalize Canvas.MAX_WIDTH / nb = q at hq ⊢
    omega

/-- Witness for C10: `nb_banks = 512` is the last safe bank count,
`nb_banks = 513` the first underflowing one. -/
theorem c10_new_arith_domain_witness :
    2 ≤ Canvas.evenQuot 512 ∧ Canvas.evenQuot 513 = 0 :=
  ⟨c10_new_arith_domain.1 512 (by norm_num) (by norm_num),
   c10_new_arith_domain.2.1 513 (by norm_num)⟩

/-- `applyAttempt` never touches the section list. -/
theorem applyAttempt_sections {st st' : ParseState} {loc : Location}
    (h : applyAttempt st loc = some st') : st'.sections = st.sections := by
  unfold applyAttempt at h
  cases hlast : st.sections.getLast? with
  | none => rw [hlast] at h; exact Option.noConfusion h
  | some sec0 =>
      rw [hlast] at h
      obtain ⟨mt, loc0, am, ao, sz, nm⟩ := sec0
      cases mt <;>
        · have h' := Option.some.inj h
          rw [← h']

/-- Every successful `processLine` step either leaves the state unchanged
(blank line or non-ROM attempt — the latter through `applyAttempt`), pushes
one parsed section, or applies one attempt. -/
theorem processLine_shape {st : ParseState} {n : Nat} {raw : List Char}
    {st' : ParseState} (h : processLine st n raw = .ok st') :
    st' = st ∨
    (∃ rest sec, stripLine raw = '[' :: rest ∧
      sectionFromStr rest = .ok sec ∧
      st' = { st with sections := st.sections ++ [sec] }) ∨
    (∃ location, applyAttempt st location = some st') := by
  unfold processLine at h
  split at h
  · exact Or.inl (Except.ok.inj h).symm
  · rename_i rest heq
    split at h
    · rename_i sec hsec
      exact Or.inr (Or.inl ⟨rest, sec, heq, hsec, (Except.ok.inj h).symm⟩)
    · exact Except.noConfusion h
  · split at h
    · exact Except.noConfusion h
    · rename_i location hloc
      split at h
      · rename_i st1 happ
        exact Or.inr (Or.inr ⟨location, happ.trans (congrArg some (Except.ok.inj h))⟩)
      · exact Except.noConfusion h

/-- The ingestion invariant behind C1: every frame's `section_id` indexes
into the section list, and — as long as no bank exceeds the `u32`
`next_power_of_two` wrap threshold `2^31` — every frame whose section is
banked ROM has its bank bounded by the current bank count. -/
def ParseInv (st : ParseState) : Prop :=
  (∀ f ∈ st.frames, f.section_id < st.sections.length) ∧
  ((∀ f ∈ st.frames, f.location.bank ≤ 2 ^ 31) →
    ∀ f ∈ st.frames, ∀ sec, st.sections[f.section_id]? = some sec →
      sec.mem_type = .Romx → f.location.bank ≤ st.nb_banks)

/-- Pushing a section preserves the invariant. -/
theorem ParseInv_pushSection {st : ParseState} (sec : Section)
    (h : ParseInv st) :
    ParseInv { st with sections := st.sections ++ [sec] } := by
  obtain ⟨h1, h2⟩ := h
  constructor
  · intro f hf
    have := h1 f hf
    simp only [List.length_append, List.length_cons, List.length_nil]
    omega
  · intro hb f hf sec' hget hmt
    have hlt := h1 f hf
    rw [List.getElem?_append_left hlt] at hget
    exact h2 hb f hf sec' hget hmt

/-- Applying an attempt preserves the invariant. -/
theorem ParseInv_applyAttempt {st st' : ParseState} {loc : Location}
    (h : applyAttempt st loc = some st') (hinv : ParseInv st) :
    ParseInv st' := by
  obtain ⟨h1, h2⟩ := hinv
  unfold applyAttempt at h
  cases hlast : st.sections.getLast? with
  | none => rw [hlast] at h; exact Option.noConfusion h
  | some sec0 =>
      rw [hlast] at h
      have hne : st.sections ≠ [] := by
        intro h0
        rw [h0] at hlast
        exact Option.noConfusion hlast
      have hlen : 0 < st.sections.length := List.length_pos.mpr hne
      have hlastget : st.sections[st.sections.length - 1]? = some sec0 := by
        rw [← List.getLast?_eq_getElem?]
        exact hlast
      obtain ⟨mt, loc0, am, ao, sz, nm⟩ := sec0
      cases hmt0 : mt
      case Romx =>
        subst hmt0
        have h' : some { st with
            nb_banks := updateBanks st.nb_banks loc.bank,
            frames := st.frames ++
              [⟨loc, st.sections.length - 1⟩] } = some st' := h
        rw [← Option.some.inj h']
        constructor
        · intro f hf
          simp only [List.mem_append, List.mem_singleton] at hf
          rcases hf with hf | rfl
          · exact h1 f hf
          · show st.sections.length - 1 < st.sections.length
            omega
        · intro hb f hf sec' hget hmt
          have hbloc : loc.bank ≤ 2 ^ 31 :=
            hb ⟨loc, st.sections.length - 1⟩ (by simp)
          have hnb : st.nb_banks ≤ updateBanks st.nb_banks loc.bank := by
            unfold updateBanks
            by_cases hc : st.nb_banks ≤ loc.bank
            · rw [if_pos hc]
              exact le_trans hc (le_next_power_of_two loc.bank hbloc)
            · rw [if_neg hc]
          simp only [List.mem_append, List.mem_singleton] at hf
          rcases hf with hf | rfl
          · have hb' : ∀ g ∈ st.frames, g.location.bank ≤ 2 ^ 31 :=
              fun g hg => hb g (by simp [hg])
            exact le_trans (h2 hb' f hf sec' hget hmt) hnb
          · have hget' : st.sections[st.sections.length - 1]? = some sec' :=
              hget
            have hsec' : sec' = ⟨.Romx, loc0, am, ao, sz, nm⟩ :=
              (Option.some.inj (hlastget.symm.trans hget')).symm
            show loc.bank ≤ updateBanks st.nb_banks loc.bank
            unfold updateBanks
            by_cases hc : st.nb_banks ≤ loc.bank
            · rw [if_pos hc]
              exact le_next_power_of_two loc.bank hbloc
            · rw [if_neg hc]
              omega
      case Rom0 =>
        subst hmt0
        have h' : some { st with frames := st.frames ++
            [⟨loc, st.sections.length - 1⟩] } = some st' := h
        rw [← Option.some.inj h']
        constructor
        · intro f hf
          simp only [List.mem_append, List.mem_singleton] at hf
          rcases hf with hf | rfl
          · exact h1 f hf
          · show st.sections.length - 1 < st.sections.length
            omega
        · intro hb f hf sec' hget hmt
          simp only [List.mem_append, List.mem_singleton] at hf
          rcases hf with hf | rfl
          · have hb' : ∀ g ∈ st.frames, g.location.bank ≤ 2 ^ 31 :=
              fun g hg => hb g (by simp [hg])
            exact h2 hb' f hf sec' hget hmt
          · exfalso
            have hget' : st.sections[st.sections.length - 1]? = some sec' :=
              hget
            have hsec' : sec' = ⟨.Rom0, loc0, am, ao, sz, nm⟩ :=
              (Option.some.inj (hlastget.symm.trans hget')).symm
            rw [hsec'] at hmt
            exact MemType.noConfusion hmt
      all_goals
        subst hmt0
        exact (Option.some.inj h) ▸ ⟨h1, h2⟩

/-- A successful `processLine` preserves the invariant. -/
theorem processLine_inv {st : ParseState} {n : Nat} {raw : List Char}
    {st' : ParseState} (h : processLine st n raw = .ok st')
    (hinv : ParseInv st) : ParseInv st' := by
  rcases processLine_shape h with rfl | ⟨rest, sec, _, _, rfl⟩ | ⟨loc, ha⟩
  · exact hinv
  · exact ParseInv_pushSection sec hinv
  · exact ParseInv_applyAttempt ha hinv

/-- The whole line loop preserves the invariant. -/
theorem parseLines_inv (lines : List (List Char)) :
    ∀ st n st', parseLines st n lines = .ok st' → ParseInv st →
      ParseInv st' := by
  induction lines with
  | nil =>
      intro st n st' h hi
      rw [← Except.ok.inj h]
      exact hi
  | cons raw rest ih =>
      intro st n st' h hi
      unfold parseLines at h
      cases hp : processLine st n raw with
      | error e => rw [hp] at h; exact Except.noConfusion h
      | ok st1 =>
          rw [hp] at h
          exact ih st1 (n + 1) st' h (processLine_inv hp hi)

/-- C1 (amended): for every `Sequence` produced by `parse_input`, and as
long as no attempt's bank index exceeds the `u32`
`next_power_of_two` wrap threshold `2^31`, every banked-ROM (`ROMX`)
attempt's bank index is at most — not strictly below — the derived
`nb_banks` (equality occurs when the bank index is itself a power of two,
see the counterexample); fixed-bank (`ROM0`) attempts' bank indices are not
bounded at all. -/
theorem c1_romx_bank_le_nb_banks (lines : List (List Char)) (seq : Sequence)
    (h : parse_input lines = .ok seq)
    (hb : ∀ f ∈ seq.frames, f.location.bank ≤ 2 ^ 31) :
    ∀ f ∈ seq.frames, ∀ sec, seq.sections[f.section_id]? = some sec →
      sec.mem_type = .Romx → f.location.bank ≤ seq.nb_banks := by
  unfold parse_input at h
  cases hp : parseLines ⟨2, [], []⟩ 1 lines with
  | error e => rw [hp] at h; exact Except.noConfusion h
  | ok st =>
      rw [hp] at h
      have hseq : seq = ⟨st.nb_banks, st.frames, st.sections⟩ :=
        (Except.ok.inj h).symm
      subst hseq
      have hinv := parseLines_inv lines ⟨2, [], []⟩ 1 st hp
        ⟨fun f hf => absurd hf (by simp), fun _ f hf => absurd hf (by simp)⟩
      intro f hf sec hget hmt
      exact hinv.2 hb f hf sec hget hmt

/-- Counterexample for C1 as stated: a single `ROMX` attempt at bank 4
derives `nb_banks = next_power_of_two(4) = 4`, so the attempt's bank index
equals — is not strictly less than — the derived bank count (and its
rectangle's x-range starts at column `4 * (30 + 2) = 128`, beyond the
126-column canvas). -/
theorem c1_bank_strictly_less_counterexample :
    parse_input ["[ROMX @ 4:4000 & 0 + 0 ] 1 x".toList, "4:4000".toList] =
      .ok ⟨4, [⟨⟨4, 0x4000⟩, 0⟩], [⟨.Romx, ⟨4, 0x4000⟩, 0, 0, 1, "x"⟩]⟩ ∧
    ¬ ((⟨⟨4, 0x4000⟩, 0⟩ : Frame).location.bank < (4 : Nat)) ∧
    (⟨⟨4, 0x4000⟩, 0⟩ : Frame).location.bank *
        (Canvas.bankWidthOf 4 + Canvas.SPACER_WIDTH) >
      Canvas.n_banks_width (Canvas.bankWidthOf 4) 4 :=
  ⟨rfl, by decide, by decide⟩

/-- Witness for C1 (amended): an `ROMX` attempt at bank 5 gives
`nb_banks = 8` and the bound `5 ≤ 8`. -/
theorem c1_romx_bank_le_nb_banks_witness :
    (⟨⟨5, 0x4000⟩, 0⟩ : Frame).location.bank ≤
      (⟨8, [⟨⟨5, 0x4000⟩, 0⟩], [⟨.Romx, ⟨5, 0x4000⟩, 0, 0, 1, "x"⟩]⟩ :
        Sequence).nb_banks :=
  c1_romx_bank_le_nb_banks
    ["[ROMX @ 5:4000 & 0 + 0 ] 1 x".toList, "5:4000".toList]
    ⟨8, [⟨⟨5, 0x4000⟩, 0⟩], [⟨.Romx, ⟨5, 0x4000⟩, 0, 0, 1, "x"⟩]⟩
    rfl (by decide) ⟨⟨5, 0x4000⟩, 0⟩ (by decide)
    ⟨.Romx, ⟨5, 0x4000⟩, 0, 0, 1, "x"⟩ rfl rfl

/-- Sections in the final state all satisfy a size bound provided every
section line of the input parses to a section satisfying it. -/
theorem parseLines_sections_pos (lines : List (List Char)) :
    ∀ st n st', parseLines st n lines = .ok st' →
      (∀ raw ∈ lines, ∀ rest sec, stripLine raw = '[' :: rest →
        sectionFromStr rest = .ok sec → 0 < sec.size) →
      (∀ sec ∈ st.sections, 0 < sec.size) →
      ∀ sec ∈ st'.sections, 0 < sec.size := by
  induction lines with
  | nil =>
      intro st n st' h _ hpos
      rw [← Except.ok.inj h]
      exact hpos
  | cons raw rest ih =>
      intro st n st' h hlines hpos
      unfold parseLines at h
      cases hp : processLine st n raw with
      | error e => rw [hp] at h; exact Except.noConfusion h
      | ok st1 =>
          rw [hp] at h
          refine ih st1 (n + 1) st' h
            (fun r hr => hlines r (by simp [hr])) ?_
          rcases processLine_shape hp with rfl | ⟨rs, sec, hstrip, hsec, rfl⟩ |
            ⟨loc, ha⟩
          · exact hpos
          · intro s hs
            have hs' : s ∈ st.sections ++ [sec] := hs
            simp only [List.mem_append, List.mem_singleton] at hs'
            rcases hs' with hs' | rfl
            · exact hpos s hs'
            · exact hlines raw (by simp) rs s hstrip hsec
          · rw [applyAttempt_sections ha]
            exact hpos

/-- C9 (amended): `parse_input` performs no positivity check on section
sizes — every `Section` held by a produced `Sequence` has the size its
declaring input line parsed to, so all sections have size > 0 exactly when
every section line of the input declares a nonzero size (and the
counterexample shows a declared size of 0 is accepted verbatim). -/
theorem c9_section_size_amended (lines : List (List Char)) (seq : Sequence)
    (h : parse_input lines = .ok seq)
    (hpos : ∀ raw ∈ lines, ∀ rest sec, stripLine raw = '[' :: rest →
      sectionFromStr rest = .ok sec → 0 < sec.size) :
    ∀ sec ∈ seq.sections, 0 < sec.size := by
  unfold parse_input at h
  cases hp : parseLines ⟨2, [], []⟩ 1 lines with
  | error e => rw [hp] at h; exact Except.noConfusion h
  | ok st =>
      rw [hp] at h
      have hseq : seq = ⟨st.nb_banks, st.frames, st.sections⟩ :=
        (Except.ok.inj h).symm
      subst hseq
      exact parseLines_sections_pos lines ⟨2, [], []⟩ 1 st hp hpos
        (fun s hs => absurd hs (by simp))

/-- Counterexample for C9 as stated: the section line
`[ROM0 @ 0:0 & 0 + 0 ] 0 x` declares size 0, parses successfully, and its
section — with `size = 0` — is held by the produced `Sequence`. -/
theorem c9_size_zero_counterexample :
    parse_input ["[ROM0 @ 0:0 & 0 + 0 ] 0 x".toList] =
      .ok ⟨2, [], [⟨.Rom0, ⟨0, 0⟩, 0, 0, 0, "x"⟩]⟩ ∧
    Section.size ⟨.Rom0, ⟨0, 0⟩, 0, 0, 0, "x"⟩ = 0 :=
  ⟨rfl, rfl⟩

/-- Witness for C9 (amended), on an input whose one section line declares
size 2. -/
theorem c9_section_size_amended_witness :
    0 < Section.size ⟨.Romx, ⟨0, 0⟩, 0, 0, 2, "x"⟩ := by
  have hpos : ∀ raw ∈ ["[ROMX @ 0:0 & 0 + 0 ] 2 x".toList], ∀ rest sec,
      stripLine raw = '[' :: rest → sectionFromStr rest = .ok sec →
      0 < sec.size := by
    intro raw hraw rest sec h1 h2
    simp only [List.mem_singleton] at hraw
    subst hraw
    rw [show stripLine ("[ROMX @ 0:0 & 0 + 0 ] 2 x".toList) =
        '[' :: ("ROMX @ 0:0 & 0 + 0 ] 2 x".toList) from rfl] at h1
    injection h1 with _ h1'
    subst h1'
    rw [show sectionFromStr ("ROMX @ 0:0 & 0 + 0 ] 2 x".toList) =
        .ok ⟨.Romx, ⟨0, 0⟩, 0, 0, 2, "x"⟩ from rfl] at h2
    rw [← Except.ok.inj h2]
    decide
  exact c9_section_size_amended ["[ROMX @ 0:0 & 0 + 0 ] 2 x".toList]
    ⟨2, [], [⟨.Romx, ⟨0, 0⟩, 0, 0, 2, "x"⟩]⟩ rfl hpos
    ⟨.Romx, ⟨0, 0⟩, 0, 0, 2, "x"⟩ (by simp)

end GBPack
